import Mathlib

/-!
Verification of `src/screener/universe_builder.py`.

Python strings are modelled as `List Char` (the program only manipulates
ASCII ticker text).  `str.strip` / `str.upper` / `str.endswith` are embedded
as list operations below; `Char.toUpper` (ASCII-only case mapping) embeds
Python's `upper` on the character range the program touches.
-/

namespace Screener

/-- Python strings, modelled as lists of characters. -/
abbrev PyStr := List Char

/-- Convenience: a Lean string literal as a `PyStr`. -/
def pyStr (s : String) : PyStr := s.toList

/-- Characters removed by Python's default `str.strip` (ASCII whitespace). -/
def isSpaceChar (c : Char) : Bool :=
  c = ' ' || c = '\t' || c = '\n' || c = '\r' || c = '\x0b' || c = '\x0c'

/-- `str.strip()`: drop leading and trailing whitespace. -/
def pyStrip (s : PyStr) : PyStr :=
  ((s.dropWhile isSpaceChar).reverse.dropWhile isSpaceChar).reverse

/-- `str.upper()`: uppercase every character (ASCII case mapping). -/
def pyUpper (s : PyStr) : PyStr := s.map Char.toUpper

/-- The exchange suffix `".NS"` appended by `to_yahoo_symbol`. -/
def nsSuffix : PyStr := pyStr ".NS"

/-- `s.endswith(suf)`: `suf` is a suffix of `s`. -/
def pyEndsWith (s suf : PyStr) : Bool := List.isSuffixOf suf s

/-- `to_yahoo_symbol` from `universe_builder.py`:
strip, uppercase, and append `".NS"` unless already present. -/
def to_yahoo_symbol (sym : PyStr) : PyStr :=
  let s := pyUpper (pyStrip sym)
  if pyEndsWith s nsSuffix then s else s ++ nsSuffix

/-- Order-preserving deduplication, `list(dict.fromkeys(symbols))`:
keys are inserted left to right, a key already present keeps its first
position, and iteration order is insertion order. -/
def pyDedup (l : List PyStr) : List PyStr :=
  l.foldl (fun acc x => if x ∈ acc then acc else acc ++ [x]) []

/-- Specification-side formulation of first-seen deduplication: keep each
element's first occurrence, drop every later duplicate, never reorder. -/
def firstSeen : List PyStr → List PyStr
  | [] => []
  | x :: xs => x :: firstSeen (xs.filter (fun y => decide (y ≠ x)))
termination_by l => l.length
decreasing_by
  simp only [List.length_cons]
  exact Nat.lt_succ_of_le (List.length_filter_le _ _)

/-- A cell of a parsed DataFrame: missing (NaN), textual, or numeric.
Numeric cells are modelled as integers; the program never relies on
fractional cell values. -/
inductive PCell where
  | null
  | str (s : PyStr)
  | num (n : Int)
deriving DecidableEq

/-- A parsed DataFrame: named columns in order, each a list of cells. -/
abbrev Table := List (PyStr × List PCell)

/-- `astype(str)` on one cell; `dropna` is the `none` case. -/
def cellStr : PCell → Option PyStr
  | .null => none
  | .str s => some s
  | .num n => some (pyStr (toString n))

/-- The body of both return statements of `extract_symbols`:
`[to_yahoo_symbol(x) for x in df[col].dropna().astype(str).tolist()]`. -/
def extractFromCol (cells : List PCell) : List PyStr :=
  (cells.filterMap cellStr).map to_yahoo_symbol

/-- The fixed preference list of column names tried by `extract_symbols`. -/
def prefNames : List PyStr :=
  [pyStr "Symbol", pyStr "SYMBOL", pyStr "symbol", pyStr "Ticker", pyStr "ticker"]

/-- `col in df.columns` followed by `df[col]`: the first column carrying
the requested name, if any. -/
def lookupCol (t : Table) (name : PyStr) : Option (List PCell) :=
  (t.find? (fun c => decide (c.1 = name))).map Prod.snd

/-- Phase 1 of `extract_symbols`: try the preference names in list order. -/
def findPref (t : Table) : List PyStr → Option (List PCell)
  | [] => none
  | p :: ps =>
    match lookupCol t p with
    | some cells => some cells
    | none => findPref t ps

/-- `df[col].dtype == object`: pandas infers `object` for a column holding
at least one string. -/
def isObjCol (cells : List PCell) : Bool :=
  cells.any fun c => match c with | .str _ => true | _ => false

/-- The `.str` accessor succeeds only when every value is a string or NaN;
on mixed string/number columns it raises, which the source's
`except Exception: continue` turns into skipping the column. -/
def strOk (cells : List PCell) : Bool :=
  cells.all fun c => match c with | .num _ => false | _ => true

/-- `df[col].str.len()` with NaN entries skipped, as `median` skips them. -/
def lenList (cells : List PCell) : List Nat :=
  cells.filterMap fun c => match c with | .str s => some s.length | _ => none

/-- Twice the pandas `median` (kept integral): the middle element of the
sorted values doubled, or the sum of the two middle elements; `none` (NaN)
on an empty series.  Doubling avoids the halving in the even case while
representing the same quantity exactly. -/
def medianDoubled (l : List Nat) : Option Nat :=
  let s := List.insertionSort (· ≤ ·) l
  match l.length with
  | 0 => none
  | n + 1 =>
    if (n + 1) % 2 = 1 then some (2 * s.getD ((n + 1) / 2) 0)
    else some (s.getD ((n + 1) / 2 - 1) 0 + s.getD ((n + 1) / 2) 0)

/-- `df[col].str.len().median() < 8`, stated exactly as `2 * median < 16`
on the doubled median; a NaN median compares `False`. -/
def medianLt8 (cells : List PCell) : Bool :=
  match medianDoubled (lenList cells) with
  | none => false
  | some v => decide (v < 16)

/-- Phase 2 of `extract_symbols`: scan columns left to right, keep the
first `object` column whose median string length is under 8; a column the
`.str` accessor raises on is skipped. -/
def heurScan : Table → Option (List PCell)
  | [] => none
  | (_, cells) :: rest =>
    if isObjCol cells then
      if strOk cells then
        if medianLt8 cells then some cells else heurScan rest
      else heurScan rest
    else heurScan rest

/-- `extract_symbols` from `universe_builder.py`; the `ValueError`
("No suitabe ticker column found in CSV.") is the spec's
`NoSymbolColumnError`, modelled as `Except.error ()`. -/
def extract_symbols (t : Table) : Except Unit (List PyStr) :=
  match findPref t prefNames with
  | some cells => Except.ok (extractFromCol cells)
  | none =>
    match heurScan t with
    | some cells => Except.ok (extractFromCol cells)
    | none => Except.error ()

/-- A column the phase-2 heuristic selects: `object` dtype, usable `.str`
accessor, median string length under 8. -/
def qualifies (cells : List PCell) : Prop :=
  isObjCol cells = true ∧ strOk cells = true ∧ medianLt8 cells = true

instance (cells : List PCell) : Decidable (qualifies cells) := by
  unfold qualifies
  infer_instance

/-- Outcome of one market-capitalization lookup in the top-up loop:
`none` is a raised exception, `some none` is an absent capitalization
(both the fast-path field and `info.get("marketCap")` yield `None`),
`some (some c)` is a present value `c`. -/
abbrev CapLookup := Option (Option Int)

/-- The candidate-filtering loop of `ensure_min_count`: for each remaining
symbol, a raised lookup is swallowed (`except Exception: continue`), an
absent capitalization is not appended, and a present value is appended
only when truthy (`if cap:`). -/
def rankCandidates (cap : PyStr → CapLookup) : List PyStr → List (PyStr × Int)
  | [] => []
  | s :: rest =>
    match cap s with
    | none => rankCandidates cap rest
    | some none => rankCandidates cap rest
    | some (some c) =>
      if c ≠ 0 then (s, c) :: rankCandidates cap rest else rankCandidates cap rest

/-- The comparison of `caps.sort(key=lambda x: x[1], reverse=True)`:
descending by capitalization. -/
def capOrd (a b : PyStr × Int) : Prop := b.2 ≤ a.2

instance : DecidableRel capOrd := fun a b => inferInstanceAs (Decidable (b.2 ≤ a.2))

instance : IsTotal (PyStr × Int) capOrd := ⟨fun a b => Int.le_total b.2 a.2⟩

instance : IsTrans (PyStr × Int) capOrd := ⟨fun _ _ _ h1 h2 => le_trans h2 h1⟩

/-- The ranked candidate list: the filtering loop followed by the stable
descending sort (Python's `list.sort` is stable; a stable insertion sort
is observationally the same contract). -/
def rankByCap (cap : PyStr → CapLookup) (l : List PyStr) : List (PyStr × Int) :=
  List.insertionSort capOrd (rankCandidates cap l)

/-- `ensure_min_count` from `universe_builder.py`, with its two effectful
inputs passed explicitly: `refSyms` is the symbol list the reference-universe
fetch plus extraction would produce, and `cap` is the market-cap provider.
The returned triple is (result, number of reference fetches performed,
symbols the capitalization loop was run over), the last two components
recording the side effects for the short-circuit claim. -/
def ensure_min_count (refSyms : List PyStr) (cap : PyStr → CapLookup)
    (symbols : List PyStr) (min_count : Nat) : List PyStr × Nat × List PyStr :=
  let symbols := pyDedup symbols
  if min_count ≤ symbols.length then (symbols, 0, [])
  else
    let remaining := refSyms.filter (fun s => decide (s ∉ symbols))
    let ranked := rankByCap cap remaining
    let need := min_count - symbols.length
    (symbols ++ (ranked.take need).map Prod.fst, 1, remaining)

/-- One HTTP attempt of `fetch_csv`, as seen from the outside: either the
request or decode raised (with message `e`), or a table was parsed. -/
inductive AttemptOutcome where
  | httpFail (e : String)
  | parsed (t : Table)

/-- `df.empty`: the parsed frame has no rows. -/
def dfEmpty (t : Table) : Bool := t.all fun c => c.2.isEmpty

/-- Result of one loop body of `fetch_csv`: the parsed table when it is
non-empty, otherwise the error caught by the `except` clause (either the
HTTP failure or the `ValueError` raised on an empty frame). -/
def attemptResult : AttemptOutcome → Except String Table
  | .httpFail e => .error e
  | .parsed t =>
    if dfEmpty t then .error "Empty CSV received from source" else .ok t

/-- Observable outcome of `fetch_csv`: a table, the `RuntimeError` chaining
the last underlying failure (the spec's `FetchError`), or the implicit
`None` Python returns when the loop body never runs (`retries < 1`). -/
inductive FetchOutcome where
  | ok (t : Table)
  | fetchErr (e : String)
  | noneRet
deriving DecidableEq

/-- Whether a `fetch_csv` outcome is the error case. -/
def FetchOutcome.isErr : FetchOutcome → Bool
  | .fetchErr _ => true
  | _ => false

/-- The retry loop of `fetch_csv`, from attempt number `i` with `r` loop
iterations remaining; returns the outcome and the number of attempts made.
On a failing attempt that is not the last, the code sleeps and continues;
on the last it raises, chaining the current (= last) error. -/
def fetchLoop (attempts : Nat → AttemptOutcome) (i : Nat) : Nat → FetchOutcome × Nat
  | 0 => (.noneRet, 0)
  | r + 1 =>
    match attemptResult (attempts i) with
    | .ok t => (.ok t, 1)
    | .error e =>
      match r with
      | 0 => (.fetchErr e, 1)
      | r' + 1 =>
        let p := fetchLoop attempts (i + 1) (r' + 1)
        (p.1, p.2 + 1)

/-- `fetch_csv` from `universe_builder.py`: `for attempt in range(1, retries + 1)`
over the per-attempt outcomes `attempts`. -/
def fetch_csv (attempts : Nat → AttemptOutcome) (retries : Nat) : FetchOutcome × Nat :=
  fetchLoop attempts 1 retries

/-- Example table for the exact-column scenario of the spec. -/
def tblScenario : Table :=
  [(pyStr "Symbol",
    [PCell.str (pyStr "TCS"), PCell.str (pyStr "infy"), PCell.str (pyStr " HDFC.NS ")])]

/-- Example table whose extraction carries a duplicate symbol. -/
def tblDupEx : Table :=
  [(pyStr "Symbol",
    [PCell.str (pyStr "TCS"), PCell.str (pyStr "INFY"), PCell.str (pyStr "TCS")])]

/-- Example table with no recognized header: a long-text column followed by
a short ticker column, exercising the phase-2 heuristic. -/
def tblHeurEx : Table :=
  [(pyStr "Company Name",
    [PCell.str (pyStr "Tata Consultancy Services Ltd."),
     PCell.str (pyStr "Infosys Limited")]),
   (pyStr "Code", [PCell.str (pyStr "TCS"), PCell.str (pyStr "INFY")])]

/-- Example reference universe for the shortfall top-up scenario. -/
def refEx : List PyStr :=
  [pyStr "A.NS", pyStr "B.NS", pyStr "C.NS", pyStr "D.NS", pyStr "E.NS",
   pyStr "F.NS", pyStr "G.NS"]

/-- Example base bucket for the shortfall top-up scenario. -/
def baseEx : List PyStr := [pyStr "A.NS", pyStr "B.NS"]

/-- Example market-cap provider: caps C=500, D=300, E=900, F=100, a raised
lookup for G, absent otherwise. -/
def capEx : PyStr → CapLookup := fun s =>
  if s = pyStr "C.NS" then some (some 500)
  else if s = pyStr "D.NS" then some (some 300)
  else if s = pyStr "E.NS" then some (some 900)
  else if s = pyStr "F.NS" then some (some 100)
  else if s = pyStr "G.NS" then none
  else some none

/-- Example market-cap provider returning the present value `0` everywhere. -/
def capZeroEx : PyStr → CapLookup := fun _ => some (some 0)

/-- Example attempt sequence: two failures, then a parsed non-empty table. -/
def attSucceed3 : Nat → AttemptOutcome := fun i =>
  if i ≤ 2 then AttemptOutcome.httpFail "boom" else AttemptOutcome.parsed tblScenario

/-- Example attempt sequence where every attempt fails. -/
def attAllFailEx : Nat → AttemptOutcome := fun _ =>
  AttemptOutcome.httpFail "connection refused"

/-- `Char.toUpper` never produces a lowercase ASCII letter. -/
theorem toUpper_not_lower (c : Char) :
    ¬(97 ≤ (Char.toUpper c).toNat ∧ (Char.toUpper c).toNat ≤ 122) := by
  unfold Char.toUpper
  by_cases h : 97 ≤ c.toNat ∧ c.toNat ≤ 122
  · simp only [ge_iff_le, h, and_self, if_pos]
    obtain ⟨h1, h2⟩ := h
    have hm1 : 65 ≤ c.toNat - 32 := by omega
    have hm2 : c.toNat - 32 ≤ 90 := by omega
    set m := c.toNat - 32 with hm
    clear_value m
    interval_cases m <;> decide
  · simp only [ge_iff_le]
    rw [if_neg]
    · exact h
    · exact h

/-- A character outside the lowercase ASCII range is fixed by `toUpper`. -/
theorem toUpper_eq_self (d : Char)
    (h : ¬(97 ≤ d.toNat ∧ d.toNat ≤ 122)) : Char.toUpper d = d := by
  unfold Char.toUpper
  simp only [ge_iff_le]
  rw [if_neg h]

/-- ASCII uppercasing is idempotent at the character level. -/
theorem toUpper_toUpper (c : Char) :
    Char.toUpper (Char.toUpper c) = Char.toUpper c :=
  toUpper_eq_self _ (toUpper_not_lower c)

/-- Characters in the uppercase ASCII letter range are not whitespace. -/
theorem isSpaceChar_false_of_range (d : Char) (h1 : 65 ≤ d.toNat)
    (h2 : d.toNat ≤ 90) : isSpaceChar d = false := by
  have hne : ∀ e : Char, e.toNat < 65 → d ≠ e := by
    intro e he heq
    subst heq
    omega
  simp only [isSpaceChar, Bool.or_eq_false_iff, decide_eq_false_iff_not]
  exact ⟨⟨⟨⟨⟨hne ' ' (by decide), hne '\t' (by decide)⟩, hne '\n' (by decide)⟩,
    hne '\r' (by decide)⟩, hne '\x0b' (by decide)⟩, hne '\x0c' (by decide)⟩

/-- Uppercasing never turns a non-whitespace character into whitespace. -/
theorem isSpaceChar_toUpper (c : Char) (h : isSpaceChar c = false) :
    isSpaceChar (Char.toUpper c) = false := by
  by_cases hl : 97 ≤ c.toNat ∧ c.toNat ≤ 122
  · unfold Char.toUpper
    simp only [ge_iff_le, hl, and_self, if_pos]
    obtain ⟨h1, h2⟩ := hl
    have hm1 : 65 ≤ c.toNat - 32 := by omega
    have hm2 : c.toNat - 32 ≤ 90 := by omega
    set m := c.toNat - 32 with hm
    clear_value m
    interval_cases m <;> decide
  · rw [toUpper_eq_self c hl]
    exact h

/-- `dropWhile` is the identity when the head does not satisfy the predicate. -/
theorem dropWhile_eq_self_of_head {α : Type} (p : α → Bool) (l : List α)
    (h : ∀ c, l.head? = some c → p c = false) : l.dropWhile p = l := by
  cases l with
  | nil => rfl
  | cons a t => exact List.dropWhile_cons_of_neg (by simp [h a rfl])

/-- `pyStrip` is the identity on strings with non-whitespace endpoints. -/
theorem pyStrip_eq_self (l : PyStr)
    (hh : ∀ c, l.head? = some c → isSpaceChar c = false)
    (hl : ∀ c, l.getLast? = some c → isSpaceChar c = false) : pyStrip l = l := by
  unfold pyStrip
  rw [dropWhile_eq_self_of_head _ l hh]
  rw [dropWhile_eq_self_of_head _ l.reverse (by simpa using hl)]
  exact l.reverse_reverse

/-- The head of a stripped string is never whitespace. -/
theorem head?_pyStrip_not_space (sym : PyStr) (c : Char)
    (hc : (pyStrip sym).head? = some c) : isSpaceChar c = false := by
  unfold pyStrip at hc
  set a := sym.dropWhile isSpaceChar with ha
  set b := a.reverse.dropWhile isSpaceChar with hb
  obtain ⟨u, hu⟩ : b <:+ a.reverse := List.dropWhile_suffix isSpaceChar
  have hrev : a = b.reverse ++ u.reverse := by
    have := congrArg List.reverse hu
    simpa [List.reverse_append] using this.symm
  have hha : a.head? = some c := by
    rw [hrev, List.head?_append, hc]
    rfl
  have := List.head?_dropWhile_not isSpaceChar sym
  rw [← ha, hha] at this
  exact this

/-- `pyUpper` distributes over append. -/
theorem pyUpper_append (s t : PyStr) :
    pyUpper (s ++ t) = pyUpper s ++ pyUpper t := List.map_append _ s t

/-- `pyUpper` is idempotent. -/
theorem pyUpper_pyUpper (s : PyStr) : pyUpper (pyUpper s) = pyUpper s := by
  unfold pyUpper
  rw [List.map_map]
  exact List.map_congr_left fun c _ => toUpper_toUpper c

/-- The normalized output always carries the `".NS"` suffix. -/
theorem to_yahoo_symbol_suffix (sym : PyStr) :
    ∃ t, to_yahoo_symbol sym = t ++ nsSuffix := by
  unfold to_yahoo_symbol
  by_cases h : pyEndsWith (pyUpper (pyStrip sym)) nsSuffix = true
  · rw [if_pos h]
    unfold pyEndsWith at h
    obtain ⟨t, ht⟩ := List.isSuffixOf_iff_suffix.mp h
    exact ⟨t, ht.symm⟩
  · rw [if_neg h]
    exact ⟨_, rfl⟩

/-- Claim C8: `to_yahoo_symbol` (the source's normalize) is idempotent:
applying it twice yields the same result as applying it once. -/
theorem normalize_idempotent (s : PyStr) :
    to_yahoo_symbol (to_yahoo_symbol s) = to_yahoo_symbol s := by
  obtain ⟨t, ht⟩ := to_yahoo_symbol_suffix s
  have hlast : ∀ c, (to_yahoo_symbol s).getLast? = some c → isSpaceChar c = false := by
    intro c hc
    rw [ht] at hc
    have : (t ++ nsSuffix).getLast? = some 'S' := by
      have : t ++ nsSuffix = (t ++ [('.' : Char), 'N']) ++ ['S'] := by
        simp [nsSuffix, pyStr]
      rw [this]
      exact List.getLast?_concat _
    rw [this] at hc
    cases hc
    decide
  have hhead : ∀ c, (to_yahoo_symbol s).head? = some c → isSpaceChar c = false := by
    intro c hc
    unfold to_yahoo_symbol at hc
    cases hw : pyStrip s with
    | nil =>
      rw [hw] at hc
      simp only [pyUpper, List.map_nil] at hc
      have hfalse : pyEndsWith ([] : PyStr) nsSuffix = false := by decide
      rw [hfalse] at hc
      simp only [Bool.false_eq_true, if_false, List.nil_append] at hc
      have : (nsSuffix).head? = some '.' := rfl
      rw [this] at hc
      cases hc
      decide
    | cons c0 w =>
      have hc0 : isSpaceChar c0 = false := head?_pyStrip_not_space s c0 (by rw [hw]; rfl)
      rw [hw] at hc
      simp only [pyUpper, List.map_cons] at hc
      have hcv : c = Char.toUpper c0 := by
        by_cases hb : pyEndsWith (Char.toUpper c0 :: List.map Char.toUpper w) nsSuffix = true
        · rw [if_pos hb] at hc
          cases hc
          rfl
        · rw [if_neg hb] at hc
          simp only [List.cons_append, List.head?_cons] at hc
          cases hc
          rfl
      rw [hcv]
      exact isSpaceChar_toUpper c0 hc0
  have hstrip : pyStrip (to_yahoo_symbol s) = to_yahoo_symbol s :=
    pyStrip_eq_self _ hhead hlast
  have hupper : pyUpper (to_yahoo_symbol s) = to_yahoo_symbol s := by
    unfold to_yahoo_symbol
    by_cases h : pyEndsWith (pyUpper (pyStrip s)) nsSuffix = true
    · rw [if_pos h]
      exact pyUpper_pyUpper _
    · rw [if_neg h]
      rw [pyUpper_append, pyUpper_pyUpper]
      congr 1
  have hends : pyEndsWith (to_yahoo_symbol s) nsSuffix = true := by
    rw [ht]
    unfold pyEndsWith
    exact List.isSuffixOf_iff_suffix.mpr (List.suffix_append t nsSuffix)
  set r := to_yahoo_symbol s with hr
  clear_value r
  unfold to_yahoo_symbol
  rw [hstrip, hupper, if_pos hends]

/-- First-seen deduplication only ever drops elements; it never reorders. -/
theorem firstSeen_sublist (l : List PyStr) : (firstSeen l).Sublist l := by
  induction l using firstSeen.induct with
  | case1 => simp [firstSeen]
  | case2 x xs ih =>
    rw [firstSeen]
    exact List.Sublist.cons₂ x (ih.trans (List.filter_sublist xs))

/-- First-seen deduplication keeps exactly the elements of the input. -/
theorem firstSeen_mem (l : List PyStr) (y : PyStr) :
    y ∈ firstSeen l ↔ y ∈ l := by
  induction l using firstSeen.induct with
  | case1 => simp [firstSeen]
  | case2 x xs ih =>
    rw [firstSeen]
    by_cases hy : y = x
    · subst hy
      simp
    · simp only [List.mem_cons, ih, List.mem_filter, decide_eq_true_eq]
      constructor
      · rintro (h | ⟨h, _⟩)
        · exact Or.inl h
        · exact Or.inr h
      · rintro (h | h)
        · exact Or.inl h
        · exact Or.inr ⟨h, hy⟩

/-- First-seen deduplication produces a duplicate-free list. -/
theorem firstSeen_nodup (l : List PyStr) : (firstSeen l).Nodup := by
  induction l using firstSeen.induct with
  | case1 => simp [firstSeen]
  | case2 x xs ih =>
    rw [firstSeen]
    refine List.nodup_cons.mpr ⟨?_, ih⟩
    intro hx
    have := (firstSeen_mem _ x).mp hx
    simp only [List.mem_filter, decide_eq_true_eq] at this
    exact this.2 rfl

/-- The fold of `dict.fromkeys` with seed `acc` appends exactly the
first occurrences of the elements not already seen. -/
theorem pyDedup_foldl (l : List PyStr) : ∀ acc : List PyStr,
    l.foldl (fun acc x => if x ∈ acc then acc else acc ++ [x]) acc
      = acc ++ firstSeen (l.filter (fun y => decide (y ∉ acc))) := by
  induction l with
  | nil =>
    intro acc
    simp [firstSeen]
  | cons x xs ih =>
    intro acc
    simp only [List.foldl_cons, List.filter_cons]
    by_cases hx : x ∈ acc
    · rw [if_pos hx]
      have hd : decide (x ∉ acc) = false := by simpa using hx
      rw [hd]
      simp only [Bool.false_eq_true, if_false]
      exact ih acc
    · rw [if_neg hx]
      have hd : decide (x ∉ acc) = true := by simpa using hx
      rw [hd]
      simp only [if_true]
      rw [ih (acc ++ [x]), firstSeen]
      have hfil : (xs.filter (fun y => decide (y ∉ acc))).filter (fun y => decide (y ≠ x))
          = xs.filter (fun y => decide (y ∉ acc ++ [x])) := by
        rw [List.filter_filter]
        refine List.filter_congr fun y _ => ?_
        by_cases h1 : y ∈ acc <;> by_cases h2 : y = x <;> simp [h1, h2]
      rw [hfil, List.append_assoc, List.singleton_append]

/-- `list(dict.fromkeys(l))` computes first-seen deduplication. -/
theorem pyDedup_eq_firstSeen (l : List PyStr) : pyDedup l = firstSeen l := by
  unfold pyDedup
  rw [pyDedup_foldl l []]
  have hfil : l.filter (fun y => decide (y ∉ ([] : List PyStr))) = l :=
    List.filter_eq_self.mpr fun a _ => by simp
  rw [hfil, List.nil_append]

/-- Deduplication is the identity on an already duplicate-free list. -/
theorem pyDedup_eq_self (l : List PyStr) (h : l.Nodup) : pyDedup l = l := by
  rw [pyDedup_eq_firstSeen]
  induction l with
  | nil => simp [firstSeen]
  | cons x xs ih =>
    rw [firstSeen]
    have hx : x ∉ xs := (List.nodup_cons.mp h).1
    have hfil : xs.filter (fun y => decide (y ≠ x)) = xs :=
      List.filter_eq_self.mpr fun a ha => by
        simp only [decide_eq_true_eq]
        rintro rfl
        exact hx ha
    rw [hfil, ih (List.nodup_cons.mp h).2]

/-- Claim C6: the deduplication applied to every extracted symbol list
(`symbols = list(dict.fromkeys(symbols))` at the top of `ensure_min_count`)
yields a duplicate-free list that keeps exactly the first occurrence of each
symbol in extraction order: it equals the first-seen filter, is a sublist of
the extracted list (no reordering), and drops nothing but duplicates. -/
theorem extraction_dedup (t : Table) (l : List PyStr)
    (_h : extract_symbols t = Except.ok l) :
    pyDedup l = firstSeen l ∧ (pyDedup l).Nodup ∧ (pyDedup l).Sublist l ∧
      ∀ x, x ∈ pyDedup l ↔ x ∈ l := by
  refine ⟨pyDedup_eq_firstSeen l, ?_, ?_, ?_⟩
  · rw [pyDedup_eq_firstSeen]
    exact firstSeen_nodup l
  · rw [pyDedup_eq_firstSeen]
    exact firstSeen_sublist l
  · intro x
    rw [pyDedup_eq_firstSeen]
    exact firstSeen_mem l x

/-- Witness for claim C6, at a table whose symbol column repeats `TCS`. -/
theorem extraction_dedup_witness :
    pyDedup [pyStr "TCS.NS", pyStr "INFY.NS", pyStr "TCS.NS"] =
      firstSeen [pyStr "TCS.NS", pyStr "INFY.NS", pyStr "TCS.NS"] ∧
    (pyDedup [pyStr "TCS.NS", pyStr "INFY.NS", pyStr "TCS.NS"]).Nodup :=
  ⟨(extraction_dedup tblDupEx [pyStr "TCS.NS", pyStr "INFY.NS", pyStr "TCS.NS"] rfl).1,
   (extraction_dedup tblDupEx [pyStr "TCS.NS", pyStr "INFY.NS", pyStr "TCS.NS"] rfl).2.1⟩

/-- Loop-body equation: a raised lookup skips the symbol. -/
theorem rankCandidates_cons_err (cap : PyStr → CapLookup) (s : PyStr)
    (rest : List PyStr) (h : cap s = none) :
    rankCandidates cap (s :: rest) = rankCandidates cap rest := by
  simp only [rankCandidates, h]

/-- Loop-body equation: an absent capitalization skips the symbol. -/
theorem rankCandidates_cons_absent (cap : PyStr → CapLookup) (s : PyStr)
    (rest : List PyStr) (h : cap s = some none) :
    rankCandidates cap (s :: rest) = rankCandidates cap rest := by
  simp only [rankCandidates, h]

/-- Loop-body equation: a present value is kept exactly when truthy. -/
theorem rankCandidates_cons_val (cap : PyStr → CapLookup) (s : PyStr)
    (rest : List PyStr) (c : Int) (h : cap s = some (some c)) :
    rankCandidates cap (s :: rest) =
      if c ≠ 0 then (s, c) :: rankCandidates cap rest
      else rankCandidates cap rest := by
  simp only [rankCandidates, h]

/-- Membership in the candidate-filtering loop's output: exactly the input
symbols whose lookup returned a present, truthy capitalization, paired with
that capitalization. -/
theorem rankCandidates_mem (cap : PyStr → CapLookup) (l : List PyStr)
    (p : PyStr × Int) :
    p ∈ rankCandidates cap l ↔
      p.1 ∈ l ∧ cap p.1 = some (some p.2) ∧ p.2 ≠ 0 := by
  induction l with
  | nil => simp [rankCandidates]
  | cons s rest ih =>
    cases hc : cap s with
    | none =>
      rw [rankCandidates_cons_err cap s rest hc]
      simp only [List.mem_cons]
      constructor
      · intro hp
        have h := ih.mp hp
        exact ⟨Or.inr h.1, h.2⟩
      · rintro ⟨hs | hs, hcap, hnz⟩
        · rw [hs, hc] at hcap
          cases hcap
        · exact ih.mpr ⟨hs, hcap, hnz⟩
    | some o =>
      cases o with
      | none =>
        rw [rankCandidates_cons_absent cap s rest hc]
        simp only [List.mem_cons]
        constructor
        · intro hp
          have h := ih.mp hp
          exact ⟨Or.inr h.1, h.2⟩
        · rintro ⟨hs | hs, hcap, hnz⟩
          · rw [hs, hc] at hcap
            cases hcap
          · exact ih.mpr ⟨hs, hcap, hnz⟩
      | some c =>
        rw [rankCandidates_cons_val cap s rest c hc]
        by_cases hcz : c = 0
        · subst hcz
          rw [if_neg (by simp)]
          simp only [List.mem_cons]
          constructor
          · intro hp
            have h := ih.mp hp
            exact ⟨Or.inr h.1, h.2⟩
          · rintro ⟨hs | hs, hcap, hnz⟩
            · rw [hs, hc] at hcap
              injection hcap with hcap
              injection hcap with hcap
              exact absurd hcap.symm hnz
            · exact ih.mpr ⟨hs, hcap, hnz⟩
        · rw [if_pos hcz]
          simp only [List.mem_cons]
          constructor
          · rintro (hp | hp)
            · subst hp
              exact ⟨Or.inl rfl, hc, hcz⟩
            · have h := ih.mp hp
              exact ⟨Or.inr h.1, h.2⟩
          · rintro ⟨hs | hs, hcap, hnz⟩
            · rw [hs, hc] at hcap
              injection hcap with hcap
              injection hcap with hcap
              left
              rw [Prod.ext_iff]
              exact ⟨hs, hcap.symm⟩
            · exact Or.inr (ih.mpr ⟨hs, hcap, hnz⟩)

/-- Sorting does not change membership in the ranked list. -/
theorem rankByCap_mem (cap : PyStr → CapLookup) (l : List PyStr)
    (p : PyStr × Int) :
    p ∈ rankByCap cap l ↔ p ∈ rankCandidates cap l :=
  (List.perm_insertionSort capOrd (rankCandidates cap l)).mem_iff

/-- Claim C3: for a fixed symbol-to-capitalization mapping, the ranked
output is sorted descending by capitalization, is a permutation of the
truthy-cap candidates in loop order, contains only candidates whose lookup
returned a present truthy value, and contains every such candidate — a
raised or absent lookup only excludes its own symbol, never the batch. -/
theorem rank_contract (cap : PyStr → CapLookup) (l : List PyStr) :
    List.Sorted capOrd (rankByCap cap l) ∧
    List.Perm (rankByCap cap l) (rankCandidates cap l) ∧
    (∀ p ∈ rankByCap cap l, p.1 ∈ l ∧ cap p.1 = some (some p.2) ∧ p.2 ≠ 0) ∧
    (∀ s c, s ∈ l → cap s = some (some c) → c ≠ 0 → (s, c) ∈ rankByCap cap l) := by
  refine ⟨List.sorted_insertionSort capOrd _, List.perm_insertionSort capOrd _, ?_, ?_⟩
  · intro p hp
    exact (rankCandidates_mem cap l p).mp ((rankByCap_mem cap l p).mp hp)
  · intro s c hs hc hnz
    exact (rankByCap_mem cap l (s, c)).mpr
      ((rankCandidates_mem cap l (s, c)).mpr ⟨hs, hc, hnz⟩)

/-- Witness for claim C3, at the spec's shortfall scenario inputs. -/
theorem rank_contract_witness :
    (pyStr "E.NS", (900 : Int)) ∈
      rankByCap capEx (refEx.filter (fun s => decide (s ∉ baseEx))) :=
  (rank_contract capEx (refEx.filter (fun s => decide (s ∉ baseEx)))).2.2.2
    (pyStr "E.NS") 900 (by decide) (by decide) (by decide)

/-- Claim C10: a candidate whose lookup succeeds with the present value `0`
is excluded from the ranked output, because `if cap:` gates on truthiness
rather than on presence. -/
theorem zero_cap_excluded (cap : PyStr → CapLookup) (l : List PyStr) (s : PyStr)
    (h : cap s = some (some 0)) :
    s ∉ (rankByCap cap l).map Prod.fst := by
  intro hmem
  obtain ⟨p, hp, hfst⟩ := List.mem_map.mp hmem
  obtain ⟨-, hcap, hnz⟩ := (rankCandidates_mem cap l p).mp ((rankByCap_mem cap l p).mp hp)
  rw [hfst, h] at hcap
  injection hcap with hcap
  injection hcap with hcap
  exact hnz hcap.symm

/-- Witness for claim C10. -/
theorem zero_cap_excluded_witness :
    (pyStr "Z.NS") ∉ (rankByCap capZeroEx [pyStr "Z.NS"]).map Prod.fst :=
  zero_cap_excluded capZeroEx [pyStr "Z.NS"] (pyStr "Z.NS") rfl

/-- When the deduplicated bucket already meets the minimum,
`ensure_min_count` returns it untouched and performs no effects. -/
theorem ensure_min_count_of_ge (refSyms : List PyStr) (cap : PyStr → CapLookup)
    (base : List PyStr) (m : Nat) (hnd : base.Nodup) (hle : m ≤ base.length) :
    ensure_min_count refSyms cap base m = (base, 0, []) := by
  unfold ensure_min_count
  rw [pyDedup_eq_self base hnd]
  simp [hle]

/-- On a shortfall, `ensure_min_count` appends the top-ranked complement
symbols and records one reference fetch and one lookup per complement
symbol. -/
theorem ensure_min_count_of_lt (refSyms : List PyStr) (cap : PyStr → CapLookup)
    (base : List PyStr) (m : Nat) (hnd : base.Nodup) (hlt : base.length < m) :
    ensure_min_count refSyms cap base m =
      (base ++ ((rankByCap cap (refSyms.filter (fun s => decide (s ∉ base)))).take
          (m - base.length)).map Prod.fst, 1,
        refSyms.filter (fun s => decide (s ∉ base))) := by
  unfold ensure_min_count
  rw [pyDedup_eq_self base hnd]
  simp [Nat.not_le.mpr hlt]

/-- Claim C1: for a deduplicated base, the top-up result keeps `base` as a
prefix, and its length is `max(len(base), min(m, len(base) + R))` where `R`
counts the rankable (present, truthy cap) complement candidates; when the
rankable complement is smaller than the shortfall the result simply stays
below `m` — the function is total and returns normally. -/
theorem topup_preserves_and_bounds (refSyms : List PyStr) (cap : PyStr → CapLookup)
    (base : List PyStr) (m : Nat) (hnd : base.Nodup) :
    (ensure_min_count refSyms cap base m).1.take base.length = base ∧
    (ensure_min_count refSyms cap base m).1.length =
      max base.length (min m (base.length +
        (rankCandidates cap (refSyms.filter (fun s => decide (s ∉ base)))).length)) := by
  by_cases hle : m ≤ base.length
  · rw [ensure_min_count_of_ge refSyms cap base m hnd hle]
    refine ⟨List.take_length base, ?_⟩
    show base.length = max base.length (min m (base.length + _))
    omega
  · have hlt := Nat.not_le.mp hle
    rw [ensure_min_count_of_lt refSyms cap base m hnd hlt]
    refine ⟨List.take_left base _, ?_⟩
    have hlen : (rankByCap cap (refSyms.filter (fun s => decide (s ∉ base)))).length =
        (rankCandidates cap (refSyms.filter (fun s => decide (s ∉ base)))).length :=
      (List.perm_insertionSort capOrd _).length_eq
    simp only [List.length_append, List.length_map, List.length_take, hlen]
    omega

/-- Witness for claim C1, at the spec's shortfall scenario inputs. -/
theorem topup_preserves_and_bounds_witness :
    (ensure_min_count refEx capEx baseEx 5).1.take baseEx.length = baseEx ∧
    (ensure_min_count refEx capEx baseEx 5).1.length =
      max baseEx.length (min 5 (baseEx.length +
        (rankCandidates capEx (refEx.filter (fun s => decide (s ∉ baseEx)))).length)) :=
  topup_preserves_and_bounds refEx capEx baseEx 5 (by decide)

/-- Claim C2: nothing in the appended top-up portion is already in `base`:
every appended symbol comes from the complement `reference minus base`
(exact membership test), and the complement itself follows the reference
order (it is a sublist of the reference list). -/
theorem topup_exclusive (refSyms : List PyStr) (cap : PyStr → CapLookup)
    (base : List PyStr) (m : Nat) (hnd : base.Nodup) :
    (∀ s ∈ (ensure_min_count refSyms cap base m).1.drop base.length,
      s ∈ refSyms ∧ s ∉ base) ∧
    (refSyms.filter (fun s => decide (s ∉ base))).Sublist refSyms := by
  refine ⟨?_, List.filter_sublist refSyms⟩
  intro s hs
  by_cases hle : m ≤ base.length
  · rw [ensure_min_count_of_ge refSyms cap base m hnd hle] at hs
    rw [List.drop_length] at hs
    exact absurd hs (List.not_mem_nil s)
  · have hlt := Nat.not_le.mp hle
    rw [ensure_min_count_of_lt refSyms cap base m hnd hlt] at hs
    rw [List.drop_left] at hs
    obtain ⟨p, hp, rfl⟩ := List.mem_map.mp hs
    have hpm : p ∈ rankByCap cap (refSyms.filter (fun s => decide (s ∉ base))) :=
      List.take_subset _ _ hp
    have hrem := ((rankCandidates_mem cap _ p).mp ((rankByCap_mem cap _ p).mp hpm)).1
    rw [List.mem_filter] at hrem
    exact ⟨hrem.1, by simpa using hrem.2⟩

/-- Witness for claim C2: the appended symbol `"E.NS"` is in the reference
universe and not in the base. -/
theorem topup_exclusive_witness :
    (pyStr "E.NS") ∈ refEx ∧ (pyStr "E.NS") ∉ baseEx :=
  (topup_exclusive refEx capEx baseEx 5 (by decide)).1 (pyStr "E.NS") (by decide)

/-- Claim C5: a deduplicated base already at or above the minimum is
returned unchanged — same symbols, same order — and the effect trace shows
zero reference fetches and zero capitalization lookups. -/
theorem shortcircuit_on_sufficiency (refSyms : List PyStr) (cap : PyStr → CapLookup)
    (base : List PyStr) (m : Nat) (hnd : base.Nodup) (hle : m ≤ base.length) :
    ensure_min_count refSyms cap base m = (base, 0, []) :=
  ensure_min_count_of_ge refSyms cap base m hnd hle

/-- Witness for claim C5. -/
theorem shortcircuit_on_sufficiency_witness :
    ensure_min_count refEx capEx refEx 5 = (refEx, 0, []) :=
  shortcircuit_on_sufficiency refEx capEx refEx 5 (by decide) (by decide)

/-- If the first `k` attempts starting at `i` fail and attempt `i + k`
parses a non-empty table, the loop returns that table after `k + 1`
attempts. -/
theorem fetchLoop_ok (attempts : Nat → AttemptOutcome) : ∀ (k i r : Nat) (t : Table),
    k < r →
    (∀ j, i ≤ j → j < i + k → ∃ e, attemptResult (attempts j) = Except.error e) →
    attemptResult (attempts (i + k)) = Except.ok t →
    fetchLoop attempts i r = (FetchOutcome.ok t, k + 1) := by
  intro k
  induction k with
  | zero =>
    intro i r t hr _ hok
    cases r with
    | zero => omega
    | succ r1 =>
      rw [Nat.add_zero] at hok
      rw [fetchLoop, hok]
  | succ k ih =>
    intro i r t hr hfail hok
    cases r with
    | zero => omega
    | succ r1 =>
      obtain ⟨e, he⟩ := hfail i (Nat.le_refl i) (by omega)
      cases r1 with
      | zero => omega
      | succ r2 =>
        have hrec := ih (i + 1) (r2 + 1) t (by omega)
          (fun j h1 h2 => hfail j (by omega) (by omega))
          (by rw [show i + 1 + k = i + (k + 1) from by omega]; exact hok)
        rw [fetchLoop, he]
        show ((fetchLoop attempts (i + 1) (r2 + 1)).1,
          (fetchLoop attempts (i + 1) (r2 + 1)).2 + 1) = (FetchOutcome.ok t, k + 1 + 1)
        rw [hrec]

/-- If every attempt in the window fails, the loop raises the last error
after exactly `r` attempts. -/
theorem fetchLoop_err (attempts : Nat → AttemptOutcome) : ∀ (r i : Nat),
    1 ≤ r →
    (∀ j, i ≤ j → j < i + r → ∃ e, attemptResult (attempts j) = Except.error e) →
    ∃ e, attemptResult (attempts (i + r - 1)) = Except.error e ∧
      fetchLoop attempts i r = (FetchOutcome.fetchErr e, r) := by
  intro r
  induction r with
  | zero => omega
  | succ r1 ih =>
    intro i _ hfail
    obtain ⟨e, he⟩ := hfail i (Nat.le_refl i) (by omega)
    cases r1 with
    | zero =>
      refine ⟨e, by simpa using he, ?_⟩
      rw [fetchLoop, he]
    | succ r2 =>
      obtain ⟨e1, he1, heq⟩ := ih (i + 1) (by omega)
        (fun j h1 h2 => hfail j (by omega) (by omega))
      refine ⟨e1, ?_, ?_⟩
      · rw [show i + (r2 + 1 + 1) - 1 = i + 1 + (r2 + 1) - 1 from by omega]
        exact he1
      · rw [fetchLoop, he]
        show ((fetchLoop attempts (i + 1) (r2 + 1)).1,
          (fetchLoop attempts (i + 1) (r2 + 1)).2 + 1) =
            (FetchOutcome.fetchErr e1, r2 + 1 + 1)
        rw [heq]

/-- Claim C4 (amended to a positive retry budget): with `1 ≤ retries`,
`fetch_csv` returns the first successfully parsed non-empty table within the
budget after exactly `k + 1` attempts when the first `k < retries` attempts
fail; after `retries` consecutive failures it raises the error wrapping the
last underlying failure, having made exactly `retries` attempts; and a
successfully parsed zero-row frame counts as a per-attempt failure. -/
theorem fetch_retry_contract (attempts : Nat → AttemptOutcome) (retries : Nat)
    (hpos : 1 ≤ retries) :
    (∀ k t, k < retries →
      (∀ j, 1 ≤ j → j ≤ k → ∃ e, attemptResult (attempts j) = Except.error e) →
      attemptResult (attempts (k + 1)) = Except.ok t →
      fetch_csv attempts retries = (FetchOutcome.ok t, k + 1)) ∧
    ((∀ j, 1 ≤ j → j ≤ retries → ∃ e, attemptResult (attempts j) = Except.error e) →
      ∃ e, attemptResult (attempts retries) = Except.error e ∧
        fetch_csv attempts retries = (FetchOutcome.fetchErr e, retries)) ∧
    (∀ t, dfEmpty t = true →
      attemptResult (AttemptOutcome.parsed t) =
        Except.error "Empty CSV received from source") := by
  refine ⟨?_, ?_, ?_⟩
  · intro k t hk hfail hok
    exact fetchLoop_ok attempts k 1 retries t hk
      (fun j h1 h2 => hfail j h1 (by omega))
      (by rw [show 1 + k = k + 1 from by omega]; exact hok)
  · intro hfail
    obtain ⟨e, he, heq⟩ := fetchLoop_err attempts retries 1 hpos
      (fun j h1 h2 => hfail j h1 (by omega))
    rw [show 1 + retries - 1 = retries from by omega] at he
    exact ⟨e, he, heq⟩
  · intro t h
    simp [attemptResult, h]

/-- Witness for claim C4: two failures then a success return the parsed
table after three attempts. -/
theorem fetch_retry_contract_witness :
    fetch_csv attSucceed3 3 = (FetchOutcome.ok tblScenario, 3) :=
  (fetch_retry_contract attSucceed3 3 (by decide)).1 2 tblScenario (by decide)
    (by
      intro j h1 h2
      interval_cases j <;> exact ⟨"boom", rfl⟩)
    rfl

/-- Counterexample for claim C4 as stated: with a retry budget of `0` the
code makes zero attempts and returns Python's implicit `None` — it neither
returns a table nor raises the promised error. -/
theorem fetch_zero_retries_cex :
    fetch_csv attAllFailEx 0 = (FetchOutcome.noneRet, 0) ∧
    FetchOutcome.noneRet.isErr = false ∧
    FetchOutcome.noneRet ≠ FetchOutcome.fetchErr "connection refused" := by
  refine ⟨rfl, rfl, by decide⟩

/-- Phase 1 returns the column of the first preference name present. -/
theorem findPref_found (t : Table) : ∀ (ps1 : List PyStr) (names : List PyStr)
    (p : PyStr) (ps2 : List PyStr) (cells : List PCell),
    names = ps1 ++ p :: ps2 →
    (∀ q ∈ ps1, lookupCol t q = none) →
    lookupCol t p = some cells →
    findPref t names = some cells := by
  intro ps1
  induction ps1 with
  | nil =>
    intro names p ps2 cells hn _ hp
    subst hn
    rw [List.nil_append, findPref, hp]
  | cons q qs ih =>
    intro names p ps2 cells hn hq hp
    subst hn
    rw [List.cons_append, findPref, hq q (List.mem_cons_self q qs)]
    exact ih (qs ++ p :: ps2) p ps2 cells rfl
      (fun q1 hq1 => hq q1 (List.mem_cons_of_mem q hq1)) hp

/-- Phase 1 fails when no preference name is present. -/
theorem findPref_none (t : Table) : ∀ names : List PyStr,
    (∀ q ∈ names, lookupCol t q = none) → findPref t names = none := by
  intro names
  induction names with
  | nil => intro _; rfl
  | cons q qs ih =>
    intro hq
    rw [findPref, hq q (List.mem_cons_self q qs)]
    exact ih fun q1 hq1 => hq q1 (List.mem_cons_of_mem q hq1)

/-- The phase-2 scan returns the first qualifying column, skipping every
earlier column that is non-textual, errors under `.str`, or has a long
median. -/
theorem heurScan_found : ∀ (t1 : Table) (nm : PyStr) (cells : List PCell)
    (t2 : Table),
    (∀ c ∈ t1, ¬qualifies c.2) → qualifies cells →
    heurScan (t1 ++ (nm, cells) :: t2) = some cells := by
  intro t1
  induction t1 with
  | nil =>
    intro nm cells t2 _ hq
    obtain ⟨h1, h2, h3⟩ := hq
    rw [List.nil_append, heurScan, if_pos h1, if_pos h2, if_pos h3]
  | cons c rest ih =>
    intro nm cells t2 hskip hq
    obtain ⟨cnm, ccells⟩ := c
    have hnq : ¬qualifies ccells := hskip (cnm, ccells) (List.mem_cons_self _ rest)
    have htail : heurScan (rest ++ (nm, cells) :: t2) = some cells :=
      ih nm cells t2 (fun c1 hc1 => hskip c1 (List.mem_cons_of_mem _ hc1)) hq
    rw [List.cons_append, heurScan]
    by_cases b1 : isObjCol ccells = true
    · rw [if_pos b1]
      by_cases b2 : strOk ccells = true
      · rw [if_pos b2]
        by_cases b3 : medianLt8 ccells = true
        · exact absurd ⟨b1, b2, b3⟩ hnq
        · rw [if_neg b3]
          exact htail
      · rw [if_neg b2]
        exact htail
    · rw [if_neg b1]
      exact htail

/-- The phase-2 scan fails when no column qualifies. -/
theorem heurScan_none : ∀ t : Table,
    (∀ c ∈ t, ¬qualifies c.2) → heurScan t = none := by
  intro t
  induction t with
  | nil => intro _; rfl
  | cons c rest ih =>
    intro hnq
    obtain ⟨cnm, ccells⟩ := c
    have hc : ¬qualifies ccells := hnq (cnm, ccells) (List.mem_cons_self _ rest)
    rw [heurScan]
    by_cases b1 : isObjCol ccells = true
    · rw [if_pos b1]
      by_cases b2 : strOk ccells = true
      · rw [if_pos b2]
        by_cases b3 : medianLt8 ccells = true
        · exact absurd ⟨b1, b2, b3⟩ hc
        · rw [if_neg b3]
          exact ih fun c1 hc1 => hnq c1 (List.mem_cons_of_mem _ hc1)
      · rw [if_neg b2]
        exact ih fun c1 hc1 => hnq c1 (List.mem_cons_of_mem _ hc1)
    · rw [if_neg b1]
      exact ih fun c1 hc1 => hnq c1 (List.mem_cons_of_mem _ hc1)

/-- Claim C9: `extract_symbols` selects by exact match against the fixed
preference list first (first name in list order that is present wins); if no
preference name is present, the first column in table order that is textual,
readable by `.str`, and has median string length under 8 is selected, with
erroring columns skipped; and if neither phase selects, it fails with the
no-symbol-column error. -/
theorem column_selection (t : Table) :
    (∀ ps1 p ps2 cells, prefNames = ps1 ++ p :: ps2 →
      (∀ q ∈ ps1, lookupCol t q = none) →
      lookupCol t p = some cells →
      extract_symbols t = Except.ok (extractFromCol cells)) ∧
    (∀ t1 nm cells t2, t = t1 ++ (nm, cells) :: t2 →
      (∀ p ∈ prefNames, lookupCol t p = none) →
      (∀ c ∈ t1, ¬qualifies c.2) → qualifies cells →
      extract_symbols t = Except.ok (extractFromCol cells)) ∧
    ((∀ p ∈ prefNames, lookupCol t p = none) →
      (∀ c ∈ t, ¬qualifies c.2) →
      extract_symbols t = Except.error ()) := by
  refine ⟨?_, ?_, ?_⟩
  · intro ps1 p ps2 cells hn hq hp
    unfold extract_symbols
    rw [findPref_found t ps1 prefNames p ps2 cells hn hq hp]
  · intro t1 nm cells t2 ht hpref hskip hq
    unfold extract_symbols
    rw [findPref_none t prefNames hpref, ht,
      heurScan_found t1 nm cells t2 hskip hq]
  · intro hpref hnq
    unfold extract_symbols
    rw [findPref_none t prefNames hpref, heurScan_none t hnq]

/-- Witness for claim C9: a table with no recognized header falls back to
the heuristic and selects the short ticker column. -/
theorem column_selection_witness :
    extract_symbols tblHeurEx =
      Except.ok (extractFromCol [PCell.str (pyStr "TCS"), PCell.str (pyStr "INFY")]) :=
  (column_selection tblHeurEx).2.1
    [(pyStr "Company Name",
      [PCell.str (pyStr "Tata Consultancy Services Ltd."),
       PCell.str (pyStr "Infosys Limited")])]
    (pyStr "Code") [PCell.str (pyStr "TCS"), PCell.str (pyStr "INFY")] []
    rfl (by decide) (by decide) (by decide)

/-- Counterexample for claim C7 as stated: a non-absent cell that is empty
after coercion is NOT dropped — `dropna` removes only missing (NaN) cells,
and the empty string is then normalized into the placeholder `".NS"`.  The
claim predicts the output `["TCS.NS"]`; the code produces
`["TCS.NS", ".NS"]`. -/
theorem empty_cell_kept_cex :
    extract_symbols [(pyStr "Symbol", [PCell.str (pyStr "TCS"), PCell.str (pyStr "")])]
      = Except.ok [pyStr "TCS.NS", pyStr ".NS"] ∧
    [pyStr "TCS.NS", pyStr ".NS"] ≠ [pyStr "TCS.NS"] := by
  exact ⟨by rfl, by decide⟩

/-- Claim C7 (amended): extraction on a `Symbol` column coerces each cell
to a string, strips, uppercases, and appends `".NS"` exactly when the value
does not already end with it; absent (NaN) cells are dropped before
normalization, but cells that are empty after coercion are kept and
normalized to `".NS"` rather than dropped.  The spec's concrete scenario
`["TCS", "infy", " HDFC.NS "] ↦ ["TCS.NS", "INFY.NS", "HDFC.NS"]` holds. -/
theorem cell_normalization_amended (cells : List PCell) :
    extract_symbols [(pyStr "Symbol", cells)] =
      Except.ok (cells.filterMap fun c => (cellStr c).map to_yahoo_symbol) ∧
    extract_symbols tblScenario =
      Except.ok [pyStr "TCS.NS", pyStr "INFY.NS", pyStr "HDFC.NS"] ∧
    to_yahoo_symbol (pyStr "") = pyStr ".NS" := by
  refine ⟨?_, by rfl, by decide⟩
  unfold extract_symbols
  rw [findPref_found [(pyStr "Symbol", cells)] [] prefNames (pyStr "Symbol")
    [pyStr "SYMBOL", pyStr "symbol", pyStr "Ticker", pyStr "ticker"] cells rfl
    (fun q hq => absurd hq (List.not_mem_nil q)) (by rfl)]
  show Except.ok (extractFromCol cells) =
    Except.ok (cells.filterMap fun c => (cellStr c).map to_yahoo_symbol)
  unfold extractFromCol
  rw [List.map_filterMap]

end Screener
